import Mathlib

/-!
Shallow embedding of the `auction` crate (crates/auction/src/lib.rs and
crates/auction/src/single_price.rs) and verification of its specification.

Machine integers are modelled as `Int` (Rust `i64` amounts; no arithmetic in
the crate ever approaches the `i64` range, every operation on amounts is a
comparison or a copy) and `Nat` (Rust `usize` quantities and lot counts; the
single subtraction `remaining_lots -= bid.quantity` is guarded by
`bid.quantity <= remaining_lots`, and a checked variant below proves the
guard means truncation/underflow never occurs).  `Uuid` values are modelled
as natural numbers drawn from a fresh-id counter threaded through resolution:
each `Bid::new` call consumes the counter, modelling `Uuid::new_v4()`
returning an identifier distinct from all previously existing ones.
-/

/-- The Bid type (lib.rs).  `id` models the `Uuid`; `amount` the `i64` price
in cents; `quantity` the `usize` number of desired units. -/
structure Bid where
  id : Nat
  amount : Int
  quantity : Nat
deriving DecidableEq

/-- `Bid::new` (lib.rs): builds a bid carrying a freshly generated id.  The
fresh `Uuid::new_v4()` is modelled by the explicit `fresh` argument, supplied
from the fresh-id counter. -/
def Bid.new (amount : Int) (quantity : Nat) (fresh : Nat) : Bid :=
  { id := fresh, amount := amount, quantity := quantity }

/-- `impl Ord for Bid` (lib.rs): bids compare by `amount` only. -/
def Bid.cmp (a b : Bid) : Ordering :=
  compare a.amount b.amount

/-- The `le` relation under which `bids.sort_by(|a, b| b.cmp(a))` sorts:
`x` may precede `y` iff `(y.cmp x).isLE`, i.e. `y.amount ≤ x.amount`
(descending by amount). -/
def bidLE (a b : Bid) : Bool :=
  (Bid.cmp b a).isLE

/-- `bidLE` as a relation, for use with the sorting library. -/
def bidBefore (a b : Bid) : Prop :=
  bidLE a b = true

instance : DecidableRel bidBefore :=
  fun a b => instDecidableEqBool (bidLE a b) true

/-- `bids.sort_by(|a, b| b.cmp(a))` (single_price.rs line 14): a stable sort,
descending by `amount`.  A stable sort's output is uniquely determined by the
comparator, so `insertionSort` (stable) faithfully models Rust's stable
`sort_by`. -/
def sortBids (bids : List Bid) : List Bid :=
  bids.insertionSort bidBefore

/-- The Sale type (lib.rs). -/
structure Sale where
  bidder_id : Nat
  amount : Int
  quantity : Nat
deriving DecidableEq

/-- Enum of valid auction strategies (lib.rs). -/
inductive AuctionStrategy where
  | SinglePrice
  | MultiPrice
deriving DecidableEq

/-- The auction type (lib.rs). -/
structure Auction where
  lots : Nat
  reserve_price : Int
  strategy : AuctionStrategy
deriving DecidableEq

/-- The scan loop of `single_price` (single_price.rs lines 16-32), over the
already-sorted bid list.  State: `remaining` models `remaining_lots`, the
list being matched is the iterator position, `n` is the fresh-id counter.
Branches, in source order: reserve cutoff breaks; a bid whose quantity fits
is accepted whole and decrements `remaining`; otherwise if lots remain a new
partial bid is synthesized via `Bid::new` (consuming a fresh id) and
`remaining` becomes zero — the Rust loop has no `break` in this branch, so
scanning continues; otherwise the loop breaks. -/
def scanBids (reserve : Int) : Nat → List Bid → Nat → List Bid
  | _, [], _ => []
  | remaining, bid :: rest, n =>
    if bid.amount < reserve then
      []
    else if bid.quantity ≤ remaining then
      bid :: scanBids reserve (remaining - bid.quantity) rest n
    else if 0 < remaining then
      Bid.new bid.amount remaining n :: scanBids reserve 0 rest (n + 1)
    else
      []

/-- The `winning_bids` vector at the end of the loop in `single_price`:
the scan applied to the sorted input, with `remaining_lots` initialized to
`auction.lots`. -/
def winning_bids (auction : Auction) (bids : List Bid) (nextId : Nat) : List Bid :=
  scanBids auction.reserve_price auction.lots (sortBids bids) nextId

/-- `single_price` (single_price.rs): sort descending, scan, and if any bid
was accepted price every sale at the last accepted bid's amount
(`winning_bids.last()`), copying each accepted bid's id and quantity. -/
def single_price (auction : Auction) (bids : List Bid) (nextId : Nat) : List Sale :=
  match (winning_bids auction bids nextId).getLast? with
  | none => []
  | some lowest =>
    (winning_bids auction bids nextId).map
      (fun bid => { bidder_id := bid.id, amount := lowest.amount, quantity := bid.quantity })

/-- Modelled from the spec: the `multi_price` strategy's implementation file
is not under src/ (lib.rs only declares the `strategies` module and the
dispatch arm).  Spec section 4.2: allocation proceeds identically to
single-price (descending order, reserve cutoff, greedy fill,
partial-fill-then-stop), but each accepted bid's sale amount equals that
bid's own amount rather than a uniform clearing price. -/
def multi_price (auction : Auction) (bids : List Bid) (nextId : Nat) : List Sale :=
  (winning_bids auction bids nextId).map
    (fun bid => { bidder_id := bid.id, amount := bid.amount, quantity := bid.quantity })

/-- `Auction::resolve_bids` (lib.rs): dispatch on the configured strategy. -/
def Auction.resolve_bids (auction : Auction) (bids : List Bid) (nextId : Nat) : List Sale :=
  match auction.strategy with
  | AuctionStrategy.SinglePrice => single_price auction bids nextId
  | AuctionStrategy.MultiPrice => multi_price auction bids nextId

/-- The AuctionBuilder type (lib.rs). -/
structure AuctionBuilder where
  lots : Nat
  reserve_price : Option Int
  strategy : Option AuctionStrategy
deriving DecidableEq

/-- `AuctionBuilder::new` (lib.rs). -/
def AuctionBuilder.new : AuctionBuilder :=
  { lots := 1, reserve_price := none, strategy := none }

/-- The fluent setter `AuctionBuilder::lots` (named `setLots` here because
Lean reserves `AuctionBuilder.lots` for the field projection). -/
def AuctionBuilder.setLots (b : AuctionBuilder) (lots : Nat) : AuctionBuilder :=
  { b with lots := lots }

/-- The fluent setter `AuctionBuilder::reserve_price`. -/
def AuctionBuilder.setReservePrice (b : AuctionBuilder) (reserve_price : Int) : AuctionBuilder :=
  { b with reserve_price := some reserve_price }

/-- The fluent setter `AuctionBuilder::strategy`. -/
def AuctionBuilder.setStrategy (b : AuctionBuilder) (strategy : AuctionStrategy) : AuctionBuilder :=
  { b with strategy := some strategy }

/-- `AuctionBuilder::build` (lib.rs): `reserve_price.unwrap_or_default()`
(the `i64` default is 0) and `strategy.unwrap_or(SinglePrice)`. -/
def AuctionBuilder.build (b : AuctionBuilder) : Auction :=
  { lots := b.lots
    reserve_price := b.reserve_price.getD 0
    strategy := b.strategy.getD AuctionStrategy.SinglePrice }

/-- One fluent setter invocation on the builder. -/
inductive BuilderCall where
  | callLots (lots : Nat)
  | callReservePrice (reserve_price : Int)
  | callStrategy (strategy : AuctionStrategy)
deriving DecidableEq

/-- Apply one setter call. -/
def applyCall (b : AuctionBuilder) : BuilderCall → AuctionBuilder
  | BuilderCall.callLots v => b.setLots v
  | BuilderCall.callReservePrice v => b.setReservePrice v
  | BuilderCall.callStrategy v => b.setStrategy v

/-- Apply a chain of fluent setter calls, left to right. -/
def applyCalls (b : AuctionBuilder) : List BuilderCall → AuctionBuilder
  | [] => b
  | c :: cs => applyCalls (applyCall b c) cs

/-- Whether a call is the `lots` setter. -/
def BuilderCall.isLots : BuilderCall → Bool
  | BuilderCall.callLots _ => true
  | _ => false

/-- Whether a call is the `reserve_price` setter. -/
def BuilderCall.isReservePrice : BuilderCall → Bool
  | BuilderCall.callReservePrice _ => true
  | _ => false

/-- Whether a call is the `strategy` setter. -/
def BuilderCall.isStrategy : BuilderCall → Bool
  | BuilderCall.callStrategy _ => true
  | _ => false

/-- Rust `usize` subtraction with its overflow check made explicit: `a - b`
panics (here: `none`) when `b > a`. -/
def checkedSub (a b : Nat) : Option Nat :=
  if b ≤ a then some (a - b) else none

/-- The scan loop of `single_price` with the `remaining_lots -= bid.quantity`
subtraction performed by `checkedSub`, so that a potential underflow panic
surfaces as `none`. -/
def scanBidsChecked (reserve : Int) : Nat → List Bid → Nat → Option (List Bid)
  | _, [], _ => some []
  | remaining, bid :: rest, n =>
    if bid.amount < reserve then
      some []
    else if bid.quantity ≤ remaining then
      match checkedSub remaining bid.quantity with
      | none => none
      | some remaining2 => (scanBidsChecked reserve remaining2 rest n).map (bid :: ·)
    else if 0 < remaining then
      (scanBidsChecked reserve 0 rest (n + 1)).map (Bid.new bid.amount remaining n :: ·)
    else
      some []

/-- `single_price` on top of the checked scan: `none` would mean a panic
during resolution. -/
def single_priceChecked (auction : Auction) (bids : List Bid) (nextId : Nat) :
    Option (List Sale) :=
  match scanBidsChecked auction.reserve_price auction.lots (sortBids bids) nextId with
  | none => none
  | some winning =>
    match winning.getLast? with
    | none => some []
    | some lowest =>
      some (winning.map
        (fun bid => { bidder_id := bid.id, amount := lowest.amount, quantity := bid.quantity }))

/-! ### The comparator -/

theorem bidLE_iff (a b : Bid) : bidLE a b = true ↔ b.amount ≤ a.amount := by
  show (compareOfLessAndEq b.amount a.amount).isLE = true ↔ b.amount ≤ a.amount
  unfold compareOfLessAndEq
  split
  · next h => simp [Ordering.isLE]; omega
  · split
    · next h => simp [Ordering.isLE]; omega
    · next h1 h2 => simp [Ordering.isLE]; omega

theorem bidBefore_iff (a b : Bid) : bidBefore a b ↔ b.amount ≤ a.amount :=
  bidLE_iff a b

instance : IsTotal Bid bidBefore :=
  ⟨fun a b => by rw [bidBefore_iff, bidBefore_iff]; omega⟩

instance : IsTrans Bid bidBefore :=
  ⟨fun a b c => by rw [bidBefore_iff, bidBefore_iff, bidBefore_iff]; omega⟩

/-! ### Sort lemmas -/

theorem sortBids_mem (bids : List Bid) (b : Bid) : b ∈ sortBids bids ↔ b ∈ bids :=
  List.mem_insertionSort bidBefore

theorem sortBids_sorted (bids : List Bid) :
    (sortBids bids).Pairwise (fun x y => y.amount ≤ x.amount) :=
  (List.sorted_insertionSort bidBefore bids).imp (fun h => (bidBefore_iff _ _).mp h)

theorem sortBids_filter_amount (bids : List Bid) (a : Int) :
    (sortBids bids).filter (fun x => decide (x.amount = a)) =
      bids.filter (fun x => decide (x.amount = a)) := by
  have hpw : (bids.filter (fun x => decide (x.amount = a))).Pairwise bidBefore := by
    apply List.pairwise_of_forall_mem_list
    intro x hx y hy
    rw [List.mem_filter] at hx hy
    rw [bidBefore_iff]
    have hx2 := of_decide_eq_true hx.2
    have hy2 := of_decide_eq_true hy.2
    omega
  have hsub : List.Sublist (bids.filter (fun x => decide (x.amount = a))) (sortBids bids) :=
    List.sublist_insertionSort hpw (List.filter_sublist bids)
  have h2 := hsub.filter (fun x => decide (x.amount = a))
  have h3 : (bids.filter (fun x => decide (x.amount = a))).filter
      (fun x => decide (x.amount = a)) = bids.filter (fun x => decide (x.amount = a)) := by
    apply List.filter_eq_self.mpr
    intro x hx
    exact (List.mem_filter.mp hx).2
  rw [h3] at h2
  have hlen : ((sortBids bids).filter (fun x => decide (x.amount = a))).length =
      (bids.filter (fun x => decide (x.amount = a))).length := by
    rw [← List.countP_eq_length_filter, ← List.countP_eq_length_filter]
    exact (List.perm_insertionSort bidBefore bids).countP_eq _
  exact (h2.eq_of_length hlen.symm).symm

/-! ### Scan lemmas -/

theorem scanBids_sum_le (reserve : Int) (bids : List Bid) :
    ∀ (remaining n : Nat),
      ((scanBids reserve remaining bids n).map Bid.quantity).sum ≤ remaining := by
  induction bids with
  | nil => intro remaining n; simp [scanBids]
  | cons bid rest ih =>
    intro remaining n
    rw [scanBids]
    split
    · simp
    · split
      · next hq =>
        have := ih (remaining - bid.quantity) n
        simp only [List.map_cons, List.sum_cons]
        omega
      · split
        · next hq hr =>
          have := ih 0 (n + 1)
          simp only [List.map_cons, List.sum_cons, Bid.new]
          omega
        · simp

theorem scanBids_reserve_le (reserve : Int) (bids : List Bid) :
    ∀ (remaining n : Nat) (b : Bid),
      b ∈ scanBids reserve remaining bids n → reserve ≤ b.amount := by
  induction bids with
  | nil => intro remaining n b hb; simp [scanBids] at hb
  | cons bid rest ih =>
    intro remaining n b hb
    rw [scanBids] at hb
    split at hb
    · simp at hb
    · split at hb
      · rcases List.mem_cons.mp hb with rfl | hb
        · omega
        · exact ih _ _ _ hb
      · split at hb
        · rcases List.mem_cons.mp hb with rfl | hb
          · simp only [Bid.new]; omega
          · exact ih _ _ _ hb
        · simp at hb

theorem scanBids_zero_quantity (reserve : Int) (bids : List Bid) :
    ∀ (n : Nat) (b : Bid), b ∈ scanBids reserve 0 bids n → b.quantity = 0 := by
  induction bids with
  | nil => intro n b hb; simp [scanBids] at hb
  | cons bid rest ih =>
    intro n b hb
    rw [scanBids] at hb
    split at hb
    · simp at hb
    · split at hb
      · next hq =>
        rcases List.mem_cons.mp hb with rfl | hb
        · omega
        · have : bid.quantity = 0 := by omega
          rw [this] at hb
          exact ih _ _ hb
      · split at hb
        · omega
        · simp at hb

theorem scanBids_origin (reserve : Int) (bids : List Bid) :
    ∀ (remaining n N : Nat), N ≤ n →
      ∀ b ∈ scanBids reserve remaining bids n, b ∈ bids ∨ N ≤ b.id := by
  induction bids with
  | nil => intro remaining n N hN b hb; simp [scanBids] at hb
  | cons bid rest ih =>
    intro remaining n N hN b hb
    rw [scanBids] at hb
    split at hb
    · simp at hb
    · split at hb
      · rcases List.mem_cons.mp hb with rfl | hb
        · exact Or.inl (List.mem_cons_self _ _)
        · rcases ih _ _ _ hN b hb with h | h
          · exact Or.inl (List.mem_cons_of_mem _ h)
          · exact Or.inr h
      · split at hb
        · rcases List.mem_cons.mp hb with rfl | hb
          · exact Or.inr (by simp only [Bid.new]; omega)
          · rcases ih _ _ _ (by omega : N ≤ n + 1) b hb with h | h
            · exact Or.inl (List.mem_cons_of_mem _ h)
            · exact Or.inr h
        · simp at hb

theorem scanBids_filter_sublist (reserve : Int) (N : Nat) (bids : List Bid) :
    ∀ (remaining n : Nat), N ≤ n →
      List.Sublist ((scanBids reserve remaining bids n).filter (fun b => decide (b.id < N))) bids := by
  induction bids with
  | nil => intro remaining n hN; simp [scanBids]
  | cons bid rest ih =>
    intro remaining n hN
    rw [scanBids]
    split
    · simp
    · split
      · rw [List.filter_cons]
        split
        · exact List.Sublist.cons₂ _ (ih _ _ hN)
        · exact List.Sublist.cons _ (ih _ _ hN)
      · split
        · rw [List.filter_cons]
          have hid : (decide ((Bid.new bid.amount remaining n).id < N)) = false := by
            simp only [Bid.new, decide_eq_false_iff_not]
            omega
          rw [hid]
          simp only [Bool.false_eq_true, if_false]
          exact List.Sublist.cons _ (ih _ _ (by omega))
        · simp

/-! ### Lemmas about the winners and sales -/

theorem winning_map_sum_le (auction : Auction) (bids : List Bid) (nextId : Nat)
    (f : Bid → Sale) (hf : ∀ b, (f b).quantity = b.quantity) :
    (((winning_bids auction bids nextId).map f).map Sale.quantity).sum ≤ auction.lots := by
  rw [List.map_map]
  have hcomp : (Sale.quantity ∘ f) = Bid.quantity := funext hf
  rw [hcomp]
  exact scanBids_sum_le auction.reserve_price (sortBids bids) auction.lots nextId

/-! ### Claim theorems -/

/-- C3: for every auction configuration and every bid collection, the sum of
the quantities of the sales returned by `resolve_bids` is less than or equal
to the configured `lots`. -/
theorem resolve_bids_sum_quantity_le_lots (auction : Auction) (bids : List Bid) (nextId : Nat) :
    ((auction.resolve_bids bids nextId).map Sale.quantity).sum ≤ auction.lots := by
  rw [Auction.resolve_bids]
  split
  · rw [single_price]
    split
    · simp
    · exact winning_map_sum_le auction bids nextId _ (fun b => rfl)
  · rw [multi_price]
    exact winning_map_sum_le auction bids nextId _ (fun b => rfl)

/-- C4: every sale returned by `resolve_bids` has an amount at least the
configured `reserve_price`, and every accepted (winning) bid — the bids the
sales originate from — has an amount at least the `reserve_price`, so no
sale originates from a bid priced below the reserve. -/
theorem resolve_bids_reserve_price (auction : Auction) (bids : List Bid) (nextId : Nat) :
    (∀ s ∈ auction.resolve_bids bids nextId, auction.reserve_price ≤ s.amount) ∧
    (∀ b ∈ winning_bids auction bids nextId, auction.reserve_price ≤ b.amount) := by
  have hw : ∀ b ∈ winning_bids auction bids nextId, auction.reserve_price ≤ b.amount :=
    fun b hb => scanBids_reserve_le auction.reserve_price (sortBids bids) auction.lots nextId b hb
  refine ⟨?_, hw⟩
  intro s hs
  rw [Auction.resolve_bids] at hs
  split at hs
  · rw [single_price] at hs
    split at hs
    · simp at hs
    · next lowest hlast =>
      rw [List.mem_map] at hs
      obtain ⟨b, hb, rfl⟩ := hs
      exact hw lowest (List.mem_of_getLast?_eq_some hlast)
  · rw [multi_price] at hs
    rw [List.mem_map] at hs
    obtain ⟨b, hb, rfl⟩ := hs
    exact hw b hb

/-- Witness for C4 at a concrete input: lots 1, reserve 0, one bid of
amount 5; both parts of the theorem are applied to concrete members. -/
theorem resolve_bids_reserve_price_witness :
    ((0 : Int) ≤ (Sale.mk 0 5 1).amount) ∧ ((0 : Int) ≤ (Bid.mk 0 5 1).amount) :=
  ⟨(resolve_bids_reserve_price ⟨1, 0, AuctionStrategy.SinglePrice⟩ [⟨0, 5, 1⟩] 1).1
      ⟨0, 5, 1⟩ (by decide),
   (resolve_bids_reserve_price ⟨1, 0, AuctionStrategy.SinglePrice⟩ [⟨0, 5, 1⟩] 1).2
      ⟨0, 5, 1⟩ (by decide)⟩

/-- C2: in the single-price strategy, when the set of accepted bids is
non-empty (the last accepted bid exists), every returned sale has exactly the
amount of that last accepted (lowest-priced winning) bid. -/
theorem single_price_uniform_amount (auction : Auction) (bids : List Bid) (nextId : Nat)
    (lowest : Bid) (hlast : (winning_bids auction bids nextId).getLast? = some lowest) :
    ∀ s ∈ single_price auction bids nextId, s.amount = lowest.amount := by
  intro s hs
  rw [single_price, hlast] at hs
  rw [List.mem_map] at hs
  obtain ⟨b, hb, rfl⟩ := hs
  rfl

/-- Witness for C2: lots 2, reserve 0, bids priced 10 and 20; the sale for
the 20-priced bid carries the clearing amount 10 of the last accepted bid. -/
theorem single_price_uniform_amount_witness :
    (Sale.mk 1 10 1).amount = (Bid.mk 0 10 1).amount :=
  single_price_uniform_amount ⟨2, 0, AuctionStrategy.SinglePrice⟩
    [⟨0, 10, 1⟩, ⟨1, 20, 1⟩] 2 ⟨0, 10, 1⟩ (by decide) ⟨1, 10, 1⟩ (by decide)

/-- C5 counterexample: with `lots = 0` and a zero-quantity bid at or above
the reserve, the single-price strategy returns a non-empty sales collection
(the zero-quantity bid is accepted because `0 <= remaining_lots` holds), so
the claim that zero configured lots always yields an empty result is false. -/
theorem single_price_zero_lots_cex :
    single_price ⟨0, 0, AuctionStrategy.SinglePrice⟩ [⟨0, 10, 0⟩] 1 ≠ [] ∧
    single_price ⟨0, 0, AuctionStrategy.SinglePrice⟩ [⟨0, 10, 0⟩] 1 = [⟨0, 10, 0⟩] := by
  decide

/-- C5 (amended): resolving an auction configured with `lots = 0` under the
single-price strategy returns an empty sales collection provided every bid
has a nonzero quantity (zero-quantity bids at or above the reserve are
otherwise accepted and produce zero-quantity sales). -/
theorem single_price_zero_lots (auction : Auction) (bids : List Bid) (nextId : Nat)
    (hlots : auction.lots = 0) (hq : ∀ b ∈ bids, b.quantity ≠ 0) :
    single_price auction bids nextId = [] := by
  have hwin : winning_bids auction bids nextId = [] := by
    rw [winning_bids, hlots]
    cases hsort : sortBids bids with
    | nil => rw [scanBids]
    | cons bid rest =>
      have hbid : bid ∈ bids :=
        (sortBids_mem bids bid).mp (hsort ▸ List.mem_cons_self bid rest)
      have hnz := hq bid hbid
      rw [scanBids]
      split
      · rfl
      · split
        · next h => exact absurd (Nat.le_zero.mp h) hnz
        · split
          · next h => exact absurd h (by omega)
          · rfl
  rw [single_price, hwin]
  rfl

/-- Witness for C5 (amended): lots 0, a single positive-quantity bid. -/
theorem single_price_zero_lots_witness :
    single_price ⟨0, 0, AuctionStrategy.SinglePrice⟩ [⟨0, 10, 1⟩] 1 = [] :=
  single_price_zero_lots ⟨0, 0, AuctionStrategy.SinglePrice⟩ [⟨0, 10, 1⟩] 1 rfl (by decide)

/-- The checked scan agrees with the scan: the guarded `usize` subtraction
in the accept branch can never underflow. -/
theorem scanBidsChecked_eq (reserve : Int) (bids : List Bid) :
    ∀ (remaining n : Nat),
      scanBidsChecked reserve remaining bids n = some (scanBids reserve remaining bids n) := by
  induction bids with
  | nil => intro remaining n; rw [scanBidsChecked, scanBids]
  | cons bid rest ih =>
    intro remaining n
    rw [scanBidsChecked, scanBids]
    split
    · rfl
    · split
      · next hq =>
        rw [checkedSub, if_pos hq]
        show (scanBidsChecked reserve (remaining - bid.quantity) rest n).map (bid :: ·) =
          some (bid :: scanBids reserve (remaining - bid.quantity) rest n)
        rw [ih]
        rfl
      · split
        · rw [ih]
          rfl
        · rfl

/-- C10: `resolve_bids` is total — the checked variant (where an underflow of
the `remaining_lots` subtraction would surface as `none`) always returns
`some`, agreeing with the unchecked embedding, and resolving an empty bid
collection yields an empty sales collection under either strategy. -/
theorem resolve_bids_total (auction : Auction) (bids : List Bid) (nextId : Nat) :
    scanBidsChecked auction.reserve_price auction.lots (sortBids bids) nextId =
      some (winning_bids auction bids nextId) ∧
    single_priceChecked auction bids nextId = some (single_price auction bids nextId) ∧
    auction.resolve_bids [] nextId = [] := by
  refine ⟨scanBidsChecked_eq _ _ _ _, ?_, ?_⟩
  · rw [single_priceChecked, scanBidsChecked_eq]
    show (match (winning_bids auction bids nextId).getLast? with
        | none => some []
        | some lowest =>
          some ((winning_bids auction bids nextId).map
            (fun bid => { bidder_id := bid.id, amount := lowest.amount, quantity := bid.quantity }))) =
      some (single_price auction bids nextId)
    rw [single_price]
    cases (winning_bids auction bids nextId).getLast? with
    | none => rfl
    | some lowest => rfl
  · rw [Auction.resolve_bids]
    split
    · rfl
    · rfl

/-- C1 counterexample: lots 2, reserve 0, bids (amount 20, qty 3) then
(amount 10, qty 0).  The first bid is accepted as a partial fill, yet the
zero-quantity bid after it is still accepted and produces a sale (and even
lowers the clearing price to 10): scanning does not stop at the partial
fill, so the claim is false. -/
theorem single_price_scan_continues_cex :
    single_price ⟨2, 0, AuctionStrategy.SinglePrice⟩ [⟨0, 20, 3⟩, ⟨1, 10, 0⟩] 2 =
      [⟨2, 10, 2⟩, ⟨1, 10, 0⟩] ∧
    Sale.mk 1 10 0 ∈
      single_price ⟨2, 0, AuctionStrategy.SinglePrice⟩ [⟨0, 20, 3⟩, ⟨1, 10, 0⟩] 2 := by
  decide

/-- C1 (amended): once a bid is accepted as a partial fill (its quantity
exceeded `remaining_lots` while `remaining_lots` was positive), the
synthesized winner takes all remaining lots and scanning continues with zero
remaining lots, where every further accepted bid has quantity zero — so no
later bid with positive quantity is accepted, but zero-quantity bids at or
above the reserve still are. -/
theorem scanBids_overfill_step (reserve : Int) (remaining : Nat) (bid : Bid)
    (rest : List Bid) (n : Nat) (hres : ¬ bid.amount < reserve)
    (hq : ¬ bid.quantity ≤ remaining) (hrem : 0 < remaining) :
    scanBids reserve remaining (bid :: rest) n =
      Bid.new bid.amount remaining n :: scanBids reserve 0 rest (n + 1) ∧
    ∀ b ∈ scanBids reserve 0 rest (n + 1), b.quantity = 0 := by
  constructor
  · rw [scanBids, if_neg hres, if_neg hq, if_pos hrem]
  · exact fun b hb => scanBids_zero_quantity reserve rest (n + 1) b hb

/-- Witness for C1 (amended) at the counterexample input's partial-fill
step. -/
theorem scanBids_overfill_step_witness :
    scanBids 0 2 [Bid.mk 0 20 3, Bid.mk 1 10 0] 2 =
      Bid.new 20 2 2 :: scanBids 0 0 [Bid.mk 1 10 0] 3 ∧
    ∀ b ∈ scanBids 0 0 [Bid.mk 1 10 0] 3, b.quantity = 0 :=
  scanBids_overfill_step 0 2 ⟨0, 20, 3⟩ [⟨1, 10, 0⟩] 2 (by decide) (by decide) (by decide)

/-! ### Builder lemmas -/

theorem applyCalls_lots_eq (b : AuctionBuilder) (cs : List BuilderCall)
    (h : cs.all (fun c => ! c.isLots) = true) : (applyCalls b cs).lots = b.lots := by
  induction cs generalizing b with
  | nil => rfl
  | cons c cs ih =>
    rw [List.all_cons, Bool.and_eq_true] at h
    rw [applyCalls, ih _ h.2]
    cases c with
    | callLots v => simp [BuilderCall.isLots] at h
    | callReservePrice v => rfl
    | callStrategy v => rfl

theorem applyCalls_reserve_price_eq (b : AuctionBuilder) (cs : List BuilderCall)
    (h : cs.all (fun c => ! c.isReservePrice) = true) :
    (applyCalls b cs).reserve_price = b.reserve_price := by
  induction cs generalizing b with
  | nil => rfl
  | cons c cs ih =>
    rw [List.all_cons, Bool.and_eq_true] at h
    rw [applyCalls, ih _ h.2]
    cases c with
    | callLots v => rfl
    | callReservePrice v => simp [BuilderCall.isReservePrice] at h
    | callStrategy v => rfl

theorem applyCalls_strategy_eq (b : AuctionBuilder) (cs : List BuilderCall)
    (h : cs.all (fun c => ! c.isStrategy) = true) :
    (applyCalls b cs).strategy = b.strategy := by
  induction cs generalizing b with
  | nil => rfl
  | cons c cs ih =>
    rw [List.all_cons, Bool.and_eq_true] at h
    rw [applyCalls, ih _ h.2]
    cases c with
    | callLots v => rfl
    | callReservePrice v => rfl
    | callStrategy v => simp [BuilderCall.isStrategy] at h

/-- C6: building from a builder with no setter calls yields
`lots = 1`, `reserve_price = 0`, `strategy = SinglePrice`; and for any chain
of setter calls, each field left unset by the chain gets its default,
regardless of which other setters were called. -/
theorem build_applies_defaults :
    (AuctionBuilder.new.build =
      { lots := 1, reserve_price := 0, strategy := AuctionStrategy.SinglePrice }) ∧
    ∀ cs : List BuilderCall,
      (cs.all (fun c => ! c.isLots) = true →
        (applyCalls AuctionBuilder.new cs).build.lots = 1) ∧
      (cs.all (fun c => ! c.isReservePrice) = true →
        (applyCalls AuctionBuilder.new cs).build.reserve_price = 0) ∧
      (cs.all (fun c => ! c.isStrategy) = true →
        (applyCalls AuctionBuilder.new cs).build.strategy = AuctionStrategy.SinglePrice) := by
  refine ⟨rfl, fun cs => ⟨?_, ?_, ?_⟩⟩
  · intro h
    show (applyCalls AuctionBuilder.new cs).lots = 1
    rw [applyCalls_lots_eq _ _ h]
    rfl
  · intro h
    show (applyCalls AuctionBuilder.new cs).reserve_price.getD 0 = 0
    rw [applyCalls_reserve_price_eq _ _ h]
    rfl
  · intro h
    show (applyCalls AuctionBuilder.new cs).strategy.getD AuctionStrategy.SinglePrice =
      AuctionStrategy.SinglePrice
    rw [applyCalls_strategy_eq _ _ h]
    rfl

/-- Witness for C6: a chain setting only `reserve_price` leaves `lots` at its
default, and a chain setting only `lots` leaves `reserve_price` and
`strategy` at their defaults. -/
theorem build_applies_defaults_witness :
    (applyCalls AuctionBuilder.new [BuilderCall.callReservePrice 7]).build.lots = 1 ∧
    (applyCalls AuctionBuilder.new [BuilderCall.callLots 5]).build.reserve_price = 0 ∧
    (applyCalls AuctionBuilder.new [BuilderCall.callLots 5]).build.strategy =
      AuctionStrategy.SinglePrice :=
  ⟨(build_applies_defaults.2 [BuilderCall.callReservePrice 7]).1 (by decide),
   (build_applies_defaults.2 [BuilderCall.callLots 5]).2.1 (by decide),
   (build_applies_defaults.2 [BuilderCall.callLots 5]).2.2 (by decide)⟩

/-- C7: when all input bid ids are below the fresh-id counter (freshness of
generated ids), every sale of the single-price resolution either copies an
input bid's id (a full fill, with that bid's full quantity) or carries an id
generated during resolution — at least the counter and distinct from every
input bid's id — so a partial-fill sale cannot be traced back to the input
bid by id. -/
theorem single_price_fresh_id_sales (auction : Auction) (bids : List Bid) (nextId : Nat)
    (hfresh : ∀ b ∈ bids, b.id < nextId) :
    ∀ s ∈ single_price auction bids nextId,
      (∃ b ∈ bids, s.bidder_id = b.id ∧ s.quantity = b.quantity) ∨
      (nextId ≤ s.bidder_id ∧ ∀ b ∈ bids, b.id ≠ s.bidder_id) := by
  intro s hs
  rw [single_price] at hs
  split at hs
  · simp at hs
  · rw [List.mem_map] at hs
    obtain ⟨w, hw, rfl⟩ := hs
    rw [winning_bids] at hw
    rcases scanBids_origin auction.reserve_price (sortBids bids) auction.lots nextId nextId
        le_rfl w hw with hw2 | hw2
    · exact Or.inl ⟨w, (sortBids_mem bids w).mp hw2, rfl, rfl⟩
    · refine Or.inr ⟨hw2, fun b hb => ?_⟩
      have := hfresh b hb
      show b.id ≠ w.id
      omega

/-- Witness for C7: lots 2, one bid requesting 3 lots with id 0, counter 1;
the partial-fill sale carries the fresh id 1, not the input id. -/
theorem single_price_fresh_id_sales_witness :
    (∃ b ∈ [Bid.mk 0 20 3],
      (Sale.mk 1 20 2).bidder_id = b.id ∧ (Sale.mk 1 20 2).quantity = b.quantity) ∨
    (1 ≤ (Sale.mk 1 20 2).bidder_id ∧
      ∀ b ∈ [Bid.mk 0 20 3], b.id ≠ (Sale.mk 1 20 2).bidder_id) :=
  single_price_fresh_id_sales ⟨2, 0, AuctionStrategy.SinglePrice⟩ [⟨0, 20, 3⟩] 1
    (by decide) ⟨1, 20, 2⟩ (by decide)

/-- C8: the single-price strategy orders bids by amount descending with a
stable sort — the sorted list is pairwise descending in amount, and for any
amount the bids of that amount appear in the sorted list exactly in their
input order; consequently (filtering the synthesized partial bid out by its
fresh id) the winners of a given amount appear in input relative order: their
ids form a sublist of the input ids of that amount. -/
theorem single_price_stable_descending (auction : Auction) (bids : List Bid)
    (nextId N : Nat) (a : Int) (hN : N ≤ nextId) (_hfresh : ∀ b ∈ bids, b.id < N) :
    (sortBids bids).Pairwise (fun x y => y.amount ≤ x.amount) ∧
    (sortBids bids).filter (fun x => decide (x.amount = a)) =
      bids.filter (fun x => decide (x.amount = a)) ∧
    List.Sublist
      ((((winning_bids auction bids nextId).filter (fun b => decide (b.id < N))).filter
        (fun x => decide (x.amount = a))).map Bid.id)
      ((bids.filter (fun x => decide (x.amount = a))).map Bid.id) := by
  refine ⟨sortBids_sorted bids, sortBids_filter_amount bids a, ?_⟩
  have h1 := scanBids_filter_sublist auction.reserve_price N (sortBids bids)
    auction.lots nextId hN
  have h2 := h1.filter (fun x => decide (x.amount = a))
  rw [sortBids_filter_amount bids a] at h2
  rw [winning_bids]
  exact h2.map Bid.id

/-- Witness for C8: two equal-amount bids (ids 0 then 1) and a higher bid;
all hypotheses discharged at a concrete input. -/
theorem single_price_stable_descending_witness :
    (sortBids [Bid.mk 0 5 1, Bid.mk 1 5 1, Bid.mk 2 7 1]).Pairwise
      (fun x y => y.amount ≤ x.amount) ∧
    (sortBids [Bid.mk 0 5 1, Bid.mk 1 5 1, Bid.mk 2 7 1]).filter
        (fun x => decide (x.amount = 5)) =
      [Bid.mk 0 5 1, Bid.mk 1 5 1, Bid.mk 2 7 1].filter (fun x => decide (x.amount = 5)) ∧
    List.Sublist
      ((((winning_bids ⟨10, 0, AuctionStrategy.SinglePrice⟩
          [Bid.mk 0 5 1, Bid.mk 1 5 1, Bid.mk 2 7 1] 3).filter
            (fun b => decide (b.id < 3))).filter (fun x => decide (x.amount = 5))).map Bid.id)
      (([Bid.mk 0 5 1, Bid.mk 1 5 1, Bid.mk 2 7 1].filter
        (fun x => decide (x.amount = 5))).map Bid.id) :=
  single_price_stable_descending ⟨10, 0, AuctionStrategy.SinglePrice⟩
    [⟨0, 5, 1⟩, ⟨1, 5, 1⟩, ⟨2, 7, 1⟩] 3 3 5 (by decide) (by decide)

/-- C9: the reserve cutoff is strict — a bid priced exactly at the reserve
whose quantity fits in the configured lots wins in full, while no accepted
(winning) bid is ever priced strictly below the reserve. -/
theorem reserve_price_cutoff_strict (auction : Auction) (b : Bid) (bids : List Bid)
    (nextId : Nat) (hq : b.quantity ≤ auction.lots)
    (hres : b.amount = auction.reserve_price) :
    single_price auction [b] nextId = [⟨b.id, b.amount, b.quantity⟩] ∧
    ∀ w ∈ winning_bids auction bids nextId, ¬ w.amount < auction.reserve_price := by
  constructor
  · have hwin : winning_bids auction [b] nextId = [b] := by
      rw [winning_bids]
      rw [show sortBids [b] = [b] from rfl]
      rw [scanBids, if_neg (by omega : ¬ b.amount < auction.reserve_price), if_pos hq, scanBids]
    rw [single_price, hwin]
    rfl
  · intro w hw
    have := scanBids_reserve_le auction.reserve_price (sortBids bids) auction.lots nextId w hw
    omega

/-- Witness for C9: reserve 5, a bid of amount exactly 5 wins; a winner in a
second auction is not below the reserve. -/
theorem reserve_price_cutoff_strict_witness :
    single_price ⟨1, 5, AuctionStrategy.SinglePrice⟩ [⟨0, 5, 1⟩] 3 =
      [⟨0, 5, 1⟩] ∧
    ¬ (Bid.mk 2 9 1).amount < (5 : Int) :=
  ⟨(reserve_price_cutoff_strict ⟨1, 5, AuctionStrategy.SinglePrice⟩ ⟨0, 5, 1⟩ [⟨2, 9, 1⟩] 3
      (by decide) (by decide)).1,
   (reserve_price_cutoff_strict ⟨1, 5, AuctionStrategy.SinglePrice⟩ ⟨0, 5, 1⟩ [⟨2, 9, 1⟩] 3
      (by decide) (by decide)).2 ⟨2, 9, 1⟩ (by decide)⟩
